import Mathlib

/-!
Shallow embedding of the garbage-collected heap core of the repository
(`src/icicle-core/src/heap/mod.rs`).

The heap module's submodules `block.rs`, `pre_alloc.rs` and `refs.rs` are
not among the source files; definitions that depend on them are modelled
from the specification and say so in their doc comments.  Everything else
is translated directly from `heap/mod.rs`.

Modelling conventions:
 * machine pointers (`UnsafeRef`, mutator addresses) are natural numbers;
 * a Rust panic/abort (`expect`, `unreachable!`) is `Option.none`;
 * a Rust unwind (panic that scoped cleanup observes) is `Outcome.panicked`;
 * `HashMap` / `HashSet` become association lists / lists with a
   no-duplicate invariant, with the operations the source uses.
-/

namespace Icicle

/-- Model of `UnsafeRef<'h>`: a non-null object address.  The heap brand
`'h` is a compile-time phantom and has no run-time content. -/
abbrev UnsafeRef : Type := Nat

/-- Largest value representable in a `u64`; `NonZeroU64::checked_add(1)`
fails exactly at this count. -/
def U64_MAX : Nat := 2 ^ 64 - 1

/-- Model of the field `Heap::pinned_roots : HashMap<UnsafeRef, NonZeroU64>`
as an association list from object address to pinned-root count. -/
abbrev PinnedRoots : Type := List (UnsafeRef × Nat)

/-- Association-list lookup, modelling `HashMap` key lookup. -/
def prLookup : PinnedRoots → UnsafeRef → Option Nat
  | [], _ => none
  | (s, n) :: rest, r => if s = r then some n else prLookup rest r

/-- Overwrite the value stored at a key, modelling `entry.insert` /
`and_modify` on an existing entry. -/
def prSet : PinnedRoots → UnsafeRef → Nat → PinnedRoots
  | [], _, _ => []
  | (s, m) :: rest, r, n =>
      if s = r then (r, n) :: rest else (s, m) :: prSet rest r n

/-- Remove a key's entry, modelling `entry.remove_entry()`. -/
def prErase : PinnedRoots → UnsafeRef → PinnedRoots
  | [], _ => []
  | (s, m) :: rest, r => if s = r then rest else (s, m) :: prErase rest r

/-- Well-formedness of the map model: keys are distinct (as in a `HashMap`)
and every stored count is a `NonZeroU64`, hence positive and at most
`u64::MAX`. -/
def prWF (m : PinnedRoots) : Prop :=
  (m.map Prod.fst).Nodup ∧ ∀ p ∈ m, 0 < p.2 ∧ p.2 ≤ U64_MAX

instance (m : PinnedRoots) : Decidable (prWF m) := by
  unfold prWF; infer_instance

/-- Translation of `Heap::retain_pinned_root` (heap/mod.rs:163-170):
`pinned_roots.entry(object).and_modify(|n| *n = n.checked_add(1).expect(ERR)).or_insert(NonZeroU64::ONE)`.
`none` models the abort on count overflow. -/
def retain_pinned_root (m : PinnedRoots) (object : UnsafeRef) :
    Option PinnedRoots :=
  match prLookup m object with
  | some n => if n = U64_MAX then none else some (prSet m object (n + 1))
  | none => some ((object, 1) :: m)

/-- Translation of `Heap::release_pinned_root` (heap/mod.rs:177-190):
on an occupied entry, store `count - 1` back if it is still non-zero and
remove the entry otherwise; a vacant entry is `unreachable!` (abort). -/
def release_pinned_root (m : PinnedRoots) (object : UnsafeRef) :
    Option PinnedRoots :=
  match prLookup m object with
  | some n =>
      match n - 1 with
      | 0 => some (prErase m object)
      | k + 1 => some (prSet m object (k + 1))
  | none => none

/-- Current pinned-root count of an object: the stored count, or 0 when the
object has no entry. -/
def prCount (m : PinnedRoots) (r : UnsafeRef) : Nat :=
  (prLookup m r).getD 0

/-- One pinned-root event on a fixed object: a `PinnedRoot` construction or
clone (retain), or a `PinnedRoot` destruction (release).  Modelled from the
spec: `PinnedRoot::new`/`clone`/`drop` live in the missing `refs.rs`; per
the spec they call `retain_pinned_root` resp. `release_pinned_root`. -/
inductive PinOp : Type
  | retain
  | release
deriving DecidableEq, Repr

/-- Run one pinned-root event on object `r`. -/
def applyPinOp (r : UnsafeRef) (op : PinOp) (m : PinnedRoots) :
    Option PinnedRoots :=
  match op with
  | .retain => retain_pinned_root m r
  | .release => release_pinned_root m r

/-- Run a sequence of pinned-root events on object `r`, aborting (`none`)
when any single event aborts. -/
def applyPinOps (r : UnsafeRef) : List PinOp → PinnedRoots → Option PinnedRoots
  | [], m => some m
  | op :: rest, m =>
      match applyPinOp r op m with
      | some m1 => applyPinOps r rest m1
      | none => none

/-- Number of retains in an event sequence. -/
def numRetains (ops : List PinOp) : Nat :=
  (ops.filter (· = PinOp.retain)).length

/-- Number of releases in an event sequence. -/
def numReleases (ops : List PinOp) : Nat :=
  (ops.filter (· = PinOp.release)).length

/-- Default block capacity.  Modelled from the spec: `DEFAULT_BLOCK_SIZE`
is a compile-time constant declared in the missing `block.rs`; its value is
not given, so a representative positive constant is used.  Sizes are
measured in units of the object alignment, so the spec's
round-size-up-to-alignment step in `try_alloc` is the identity. -/
def DEFAULT_BLOCK_SIZE : Nat := 4096

/-- Model of `Block<'h>`.  Modelled from the spec (`block.rs` is missing):
a block has a backing region of `capacity` bytes and a bump `cursor`; the
pointer to the region is modelled by a block identity `id`, so an address
is a block identity plus an offset. -/
structure Block : Type where
  id : Nat
  capacity : Nat
  cursor : Nat
deriving DecidableEq, Repr

/-- Modelled from the spec: `Block::with_capacity(heap, capacity)`
allocates backing memory of at least `capacity` bytes with cursor 0; the
ad-hoc path requests exactly the object's size, so capacity is exact. -/
def Block.with_capacity (i : Nat) (c : Nat) : Block :=
  { id := i, capacity := c, cursor := 0 }

/-- Modelled from the spec: `Block::new(heap)` creates a block of the
default capacity. -/
def Block.new (i : Nat) : Block :=
  { id := i, capacity := DEFAULT_BLOCK_SIZE, cursor := 0 }

/-- Modelled from the spec: `Block::try_alloc(size)` succeeds and advances
the cursor when there is room, and returns `none` otherwise.  The returned
offset is the old cursor. -/
def Block.try_alloc (b : Block) (size : Nat) : Option (Nat × Block) :=
  if b.cursor + size ≤ b.capacity then
    some (b.cursor, { b with cursor := b.cursor + size })
  else
    none

/-- An allocated address: the identity of the block the object lives in
plus the object's offset in that block. -/
structure Addr : Type where
  blockId : Nat
  off : Nat
deriving DecidableEq, Repr

/-- Combined state of one mutator together with the heap state its
operations touch.  Fields mirror `Heap` (heap/mod.rs:59-91) and `Mutator`
(heap/mod.rs:201-221): the heap's block registry `blocks`, mutator
registry `mutators` and pinned-root map `pinned_roots`, and the mutator's
current `allocator` block, `stack_root_batches` (each batch recorded by
its descriptor, modelled as the batch length) and `pinned_stack_roots`.
`nextBlockId` is the modelling device that keeps block identities
distinct. -/
structure MutState : Type where
  blocks : List Block
  mutators : List Nat
  pinned_roots : PinnedRoots
  allocator : Block
  stack_root_batches : List Nat
  pinned_stack_roots : List UnsafeRef
  nextBlockId : Nat
deriving DecidableEq, Repr

/-- Translation of `Heap::add_block` (heap/mod.rs:124-128): push the block
onto the heap's block registry. -/
def add_block (st : MutState) (b : Block) : MutState :=
  { st with blocks := st.blocks ++ [b] }

/-- Translation of `Mutator::alloc_large` (heap/mod.rs:305-312): create an
ad-hoc block of capacity `size`, allocate the value in it (`expect`:
abort if the block lacks space), and give the block to the heap. -/
def alloc_large (st : MutState) (size : Nat) : Option (Addr × MutState) :=
  let block := Block.with_capacity st.nextBlockId size
  match block.try_alloc size with
  | none => none
  | some (off, block1) =>
      some (⟨block.id, off⟩,
            add_block { st with nextBlockId := st.nextBlockId + 1 } block1)

/-- Translation of `Mutator::alloc_small_fast` (heap/mod.rs:319-323): a
pointer bump allocation in the mutator's current allocator block. -/
def alloc_small_fast (st : MutState) (size : Nat) :
    Option (Addr × MutState) :=
  match st.allocator.try_alloc size with
  | none => none
  | some (off, b1) => some (⟨st.allocator.id, off⟩, { st with allocator := b1 })

/-- Translation of `Mutator::alloc_small_slow` (heap/mod.rs:329-341):
create a new default-size block, allocate the value in it (`expect`:
abort if it lacks space), install it as the allocator, and give the old
allocator block to the heap. -/
def alloc_small_slow (st : MutState) (size : Nat) :
    Option (Addr × MutState) :=
  let new_block := Block.new st.nextBlockId
  match new_block.try_alloc size with
  | none => none
  | some (off, nb1) =>
      some (⟨new_block.id, off⟩,
            add_block { st with allocator := nb1,
                                nextBlockId := st.nextBlockId + 1 }
              st.allocator)

/-- Translation of `Mutator::alloc` (heap/mod.rs:290-301): oversize values
go to `alloc_large`; otherwise try `alloc_small_fast` and fall back to
`alloc_small_slow`. -/
def alloc (st : MutState) (size : Nat) : Option (Addr × MutState) :=
  if size > DEFAULT_BLOCK_SIZE then
    alloc_large st size
  else
    match alloc_small_fast st size with
    | some res => some res
    | none => alloc_small_slow st size

/-- How a callback finishes: a normal return with a value, or a Rust panic
that unwinds through the caller's scoped cleanup. -/
inductive Outcome (R : Type) : Type
  | normal (r : R)
  | panicked
deriving DecidableEq, Repr

/-- Translation of `Mutator::with_stack_roots::<N>` (heap/mod.rs:369-391):
build a batch of `n` stack roots each initialized with
`StackRoot::new(undef)` (modelled from the spec: `StackRoot` lives in the
missing `refs.rs` and holds the `UnsafeRef` it was created with), push the
batch's descriptor onto `stack_root_batches`, call `f` with the batch, and
pop again whether `f` returns or panics (`scope_exit`; the pop's `expect`
aborts on an empty stack).  `undef` is the heap's pre-allocated undef
object, `self.heap.pre_alloc.undef()`. -/
def with_stack_roots {R : Type} (undef : UnsafeRef) (n : Nat) (st : MutState)
    (f : List UnsafeRef → MutState → Option (Outcome R × MutState)) :
    Option (Outcome R × MutState) :=
  let batch := List.replicate n undef
  let st1 := { st with stack_root_batches := n :: st.stack_root_batches }
  match f batch st1 with
  | none => none
  | some (out, st2) =>
      match st2.stack_root_batches with
      | [] => none
      | _ :: rest => some (out, { st2 with stack_root_batches := rest })

/-- Translation of `Mutator::with_pinned_stack_root` via
`with_pinned_stack_root_unsafe` (heap/mod.rs:407-440): construct the
pinned stack root for `object` (modelled from the spec: `PinnedStackRoot`
lives in the missing `refs.rs` and holds the `UnsafeRef` it was created
with), push `object` onto `pinned_stack_roots`, call `f` with the root,
and pop again whether `f` returns or panics (`scope_exit`; the pop's
`expect` aborts on an empty stack). -/
def with_pinned_stack_root {R : Type} (object : UnsafeRef) (st : MutState)
    (f : UnsafeRef → MutState → Option (Outcome R × MutState)) :
    Option (Outcome R × MutState) :=
  let root := object
  let st1 := { st with pinned_stack_roots := object :: st.pinned_stack_roots }
  match f root st1 with
  | none => none
  | some (out, st2) =>
      match st2.pinned_stack_roots with
      | [] => none
      | _ :: rest => some (out, { st2 with pinned_stack_roots := rest })

/-- Translation of `Mutator::safe_point_with` (heap/mod.rs:277-282): the
body is `f()` (the stop-the-world logic is a TODO in the source).  The
callback is modelled as a function over its own caller-side state `κ`, so
that its result and effects are distinguishable from the heap state. -/
def safe_point_with {κ R : Type} (st : MutState) (f : κ → R × κ) (k : κ) :
    (R × κ) × MutState :=
  (f k, st)

/-- Translation of `Mutator::safe_point` (heap/mod.rs:258-262):
`safe_point_with(|| ())`. -/
def safe_point (st : MutState) : MutState :=
  (safe_point_with st (fun (u : Unit) => ((), u)) ()).2

/-- A client program made of the scoped root operations: the body a
callback passed to `with_stack_roots` / `with_pinned_stack_root` can run
against the mutator's root stacks, including raising a panic. -/
inductive Cmd : Type
  | skip
  | panic
  | seq (c1 c2 : Cmd)
  | withRoots (n : Nat) (body : Cmd)
  | withPinned (r : UnsafeRef) (body : Cmd)
deriving DecidableEq, Repr

/-- Run a client program: `seq` stops at a panic, and the scoped
operations are exactly `with_stack_roots` / `with_pinned_stack_root`
applied to the program's body as callback. -/
def exec (undef : UnsafeRef) : Cmd → MutState → Option (Outcome Unit × MutState)
  | .skip, st => some (.normal (), st)
  | .panic, st => some (.panicked, st)
  | .seq c1 c2, st =>
      match exec undef c1 st with
      | none => none
      | some (.panicked, st1) => some (.panicked, st1)
      | some (.normal _, st1) => exec undef c2 st1
  | .withRoots n body, st =>
      with_stack_roots undef n st (fun _ s => exec undef body s)
  | .withPinned r body, st =>
      with_pinned_stack_root r st (fun _ s => exec undef body s)

/-- The heap state the mutator-registry claims are about, together with
the live mutator boxes themselves: `mutators` is
`Heap::mutators : HashSet<NonNull<Mutator>>` (a set of mutator
addresses), `blocks` is the heap's block registry, and `liveMut` maps each
live mutator's address to that mutator's current allocator block.
`nextBlockId` keeps block identities distinct. -/
structure RegWorld : Type where
  mutators : List Nat
  blocks : List Block
  liveMut : List (Nat × Block)
  nextBlockId : Nat
deriving DecidableEq, Repr

/-- Association-list lookup for the live-mutator table. -/
def mutLookup : List (Nat × Block) → Nat → Option Block
  | [], _ => none
  | (s, b) :: rest, a => if s = a then some b else mutLookup rest a

/-- Remove a live-mutator entry by address. -/
def mutErase : List (Nat × Block) → Nat → List (Nat × Block)
  | [], _ => []
  | (s, b) :: rest, a => if s = a then rest else (s, b) :: mutErase rest a

/-- Translation of `Heap::register_mutator` (heap/mod.rs:135-142):
`HashSet::insert` of the mutator's address. -/
def register_mutator (w : RegWorld) (a : Nat) : RegWorld :=
  if a ∈ w.mutators then w else { w with mutators := a :: w.mutators }

/-- Translation of `Heap::unregister_mutator` (heap/mod.rs:149-156):
`set.take(&mutator).expect("Use-after-drop of mutator")` — remove the
address, aborting (`none`) when it is not in the registry. -/
def unregister_mutator (w : RegWorld) (a : Nat) : Option RegWorld :=
  if a ∈ w.mutators then some { w with mutators := w.mutators.erase a }
  else none

/-- Translation of `Mutator::new` (heap/mod.rs:229-246): box a new mutator
whose allocator is a fresh default block (the box lives at address `a`)
and register its address with the heap. -/
def mutator_new (w : RegWorld) (a : Nat) : RegWorld :=
  let w1 := { w with
                liveMut := (a, Block.new w.nextBlockId) :: w.liveMut,
                nextBlockId := w.nextBlockId + 1 }
  register_mutator w1 a

/-- Translation of `Mutator::drop` (heap/mod.rs:443-456): transfer the
mutator's allocator block to the heap with `add_block`, then unregister
the mutator (abort on use-after-drop).  Only a live mutator can be
dropped, so the lookup into the live table reflects Rust ownership. -/
def mutator_drop (w : RegWorld) (a : Nat) : Option RegWorld :=
  match mutLookup w.liveMut a with
  | none => none
  | some blk =>
      unregister_mutator
        { w with blocks := w.blocks ++ [blk],
                 liveMut := mutErase w.liveMut a } a

/-- A mutator lifecycle event: `Mutator::new` at a given box address, or
`Mutator::drop` of the mutator at an address. -/
inductive MutEvent : Type
  | create (a : Nat)
  | destroy (a : Nat)
deriving DecidableEq, Repr

/-- Run a sequence of mutator lifecycle events. -/
def runMutEvents : List MutEvent → RegWorld → Option RegWorld
  | [], w => some w
  | .create a :: rest, w => runMutEvents rest (mutator_new w a)
  | .destroy a :: rest, w =>
      match mutator_drop w a with
      | none => none
      | some w1 => runMutEvents rest w1

/-- Address freshness along a run: a box for a new mutator is never placed
at the address of a mutator that is still live (Rust's allocator
guarantees distinct addresses for simultaneously live boxes). -/
def freshRun : List MutEvent → RegWorld → Bool
  | [], _ => true
  | .create a :: rest, w =>
      (mutLookup w.liveMut a == none) && freshRun rest (mutator_new w a)
  | .destroy a :: rest, w =>
      match mutator_drop w a with
      | none => true
      | some w1 => freshRun rest w1

/-- The heap as `Heap::with` creates it: empty registries
(heap/mod.rs:108-115). -/
def initialReg : RegWorld :=
  { mutators := [], blocks := [], liveMut := [], nextBlockId := 0 }

/-! Lemmas about the pinned-root map model. -/

lemma prLookup_eq_none_iff (m : PinnedRoots) (r : UnsafeRef) :
    prLookup m r = none ↔ r ∉ m.map Prod.fst := by
  induction m with
  | nil => simp [prLookup]
  | cons p rest ih =>
      obtain ⟨s, n⟩ := p
      by_cases hs : s = r
      · subst hs; simp [prLookup]
      · simp [prLookup, hs, ih, Ne.symm hs]

lemma prLookup_mem {m : PinnedRoots} {r : UnsafeRef} {n : Nat}
    (h : prLookup m r = some n) : (r, n) ∈ m := by
  induction m with
  | nil => simp [prLookup] at h
  | cons p rest ih =>
      obtain ⟨s, v⟩ := p
      by_cases hs : s = r
      · subst hs
        simp [prLookup] at h
        simp [h]
      · simp [prLookup, hs] at h
        exact List.mem_cons_of_mem _ (ih h)

lemma prSet_map_fst (m : PinnedRoots) (r : UnsafeRef) (v : Nat) :
    (prSet m r v).map Prod.fst = m.map Prod.fst := by
  induction m with
  | nil => simp [prSet]
  | cons p rest ih =>
      obtain ⟨s, n⟩ := p
      by_cases hs : s = r
      · subst hs; simp [prSet]
      · simp [prSet, hs, ih]

lemma mem_prSet {p : UnsafeRef × Nat} {m : PinnedRoots} {r : UnsafeRef}
    {v : Nat} (h : p ∈ prSet m r v) : p = (r, v) ∨ p ∈ m := by
  induction m with
  | nil => simp [prSet] at h
  | cons q rest ih =>
      obtain ⟨s, n⟩ := q
      by_cases hs : s = r
      · subst hs
        simp [prSet] at h
        rcases h with h | h
        · exact Or.inl h
        · exact Or.inr (List.mem_cons_of_mem _ h)
      · simp [prSet, hs] at h
        rcases h with h | h
        · exact Or.inr (by simp [h])
        · rcases ih h with h1 | h1
          · exact Or.inl h1
          · exact Or.inr (List.mem_cons_of_mem _ h1)

lemma prLookup_prSet_self {m : PinnedRoots} {r : UnsafeRef} {n : Nat}
    (v : Nat) (h : prLookup m r = some n) :
    prLookup (prSet m r v) r = some v := by
  induction m with
  | nil => simp [prLookup] at h
  | cons p rest ih =>
      obtain ⟨s, w⟩ := p
      by_cases hs : s = r
      · subst hs; simp [prSet, prLookup]
      · simp [prLookup, hs] at h
        simp [prSet, prLookup, hs, ih h]

lemma prLookup_prSet_ne {m : PinnedRoots} {r r' : UnsafeRef} (v : Nat)
    (h : r' ≠ r) : prLookup (prSet m r v) r' = prLookup m r' := by
  induction m with
  | nil => simp [prSet]
  | cons p rest ih =>
      obtain ⟨s, w⟩ := p
      by_cases hs : s = r
      · subst hs
        simp [prSet, prLookup, Ne.symm h]
      · simp [prSet, prLookup, hs, ih]

lemma prErase_map_fst (m : PinnedRoots) (r : UnsafeRef) :
    (prErase m r).map Prod.fst = (m.map Prod.fst).erase r := by
  induction m with
  | nil => simp [prErase]
  | cons p rest ih =>
      obtain ⟨s, n⟩ := p
      by_cases hs : s = r
      · subst hs; simp [prErase, List.erase_cons]
      · simp [prErase, hs, List.erase_cons, ih]

lemma mem_prErase {p : UnsafeRef × Nat} {m : PinnedRoots} {r : UnsafeRef}
    (h : p ∈ prErase m r) : p ∈ m := by
  induction m with
  | nil => simp [prErase] at h
  | cons q rest ih =>
      obtain ⟨s, n⟩ := q
      by_cases hs : s = r
      · subst hs
        simp [prErase] at h
        exact List.mem_cons_of_mem _ h
      · simp [prErase, hs] at h
        rcases h with h | h
        · simp [h]
        · exact List.mem_cons_of_mem _ (ih h)

lemma prLookup_prErase_self {m : PinnedRoots} {r : UnsafeRef}
    (h : (m.map Prod.fst).Nodup) : prLookup (prErase m r) r = none := by
  induction m with
  | nil => simp [prErase, prLookup]
  | cons p rest ih =>
      obtain ⟨s, n⟩ := p
      simp only [List.map_cons, List.nodup_cons] at h
      by_cases hs : s = r
      · subst hs
        simp only [prErase, if_pos rfl]
        exact (prLookup_eq_none_iff rest s).2 h.1
      · simp [prErase, hs, prLookup, ih h.2]

lemma prLookup_prErase_ne {m : PinnedRoots} {r r' : UnsafeRef}
    (h : r' ≠ r) : prLookup (prErase m r) r' = prLookup m r' := by
  induction m with
  | nil => simp [prErase]
  | cons p rest ih =>
      obtain ⟨s, n⟩ := p
      by_cases hs : s = r
      · subst hs
        simp [prErase, prLookup, Ne.symm h]
      · simp [prErase, prLookup, hs, ih]

lemma prWF_bounds {m : PinnedRoots} {r : UnsafeRef} {n : Nat}
    (h : prWF m) (hl : prLookup m r = some n) : 0 < n ∧ n ≤ U64_MAX :=
  h.2 _ (prLookup_mem hl)

lemma prWF_retain {m m' : PinnedRoots} {r : UnsafeRef} (h : prWF m)
    (hr : retain_pinned_root m r = some m') : prWF m' := by
  unfold retain_pinned_root at hr
  split at hr
  case h_1 n hl =>
      split at hr
      · cases hr
      case isFalse hmax =>
        injection hr with hr
        subst hr
        refine ⟨by rw [prSet_map_fst]; exact h.1, ?_⟩
        intro p hp
        rcases mem_prSet hp with rfl | hp
        · have hb := prWF_bounds h hl
          exact ⟨Nat.succ_pos _, Nat.succ_le_of_lt (lt_of_le_of_ne hb.2 hmax)⟩
        · exact h.2 _ hp
  case h_2 hl =>
      injection hr with hr
      subst hr
      refine ⟨?_, ?_⟩
      · simp only [List.map_cons, List.nodup_cons]
        exact ⟨(prLookup_eq_none_iff m r).1 hl, h.1⟩
      · intro p hp
        rcases List.mem_cons.1 hp with rfl | hp
        · exact ⟨Nat.one_pos, by unfold U64_MAX; omega⟩
        · exact h.2 _ hp

lemma prWF_release {m m' : PinnedRoots} {r : UnsafeRef} (h : prWF m)
    (hr : release_pinned_root m r = some m') : prWF m' := by
  unfold release_pinned_root at hr
  split at hr
  case h_1 n hl =>
      split at hr
      case h_1 hn =>
        injection hr with hr
        subst hr
        refine ⟨?_, ?_⟩
        · rw [prErase_map_fst]; exact h.1.erase r
        · intro p hp; exact h.2 _ (mem_prErase hp)
      case h_2 k hn =>
        injection hr with hr
        subst hr
        refine ⟨by rw [prSet_map_fst]; exact h.1, ?_⟩
        intro p hp
        rcases mem_prSet hp with rfl | hp
        · have hb := prWF_bounds h hl
          exact ⟨Nat.succ_pos _, by omega⟩
        · exact h.2 _ hp
  case h_2 hl => cases hr

lemma retain_count {m m' : PinnedRoots} {r : UnsafeRef}
    (hr : retain_pinned_root m r = some m') :
    prCount m' r = prCount m r + 1 := by
  unfold retain_pinned_root at hr
  split at hr
  case h_1 n hl =>
      split at hr
      · cases hr
      · injection hr with hr
        subst hr
        unfold prCount
        rw [prLookup_prSet_self _ hl, hl]
        rfl
  case h_2 hl =>
      injection hr with hr
      subst hr
      unfold prCount
      rw [hl]
      simp [prLookup]

lemma release_count {m m' : PinnedRoots} {r : UnsafeRef} (h : prWF m)
    (hr : release_pinned_root m r = some m') :
    0 < prCount m r ∧ prCount m' r = prCount m r - 1 := by
  unfold release_pinned_root at hr
  split at hr
  case h_1 n hl =>
      have hb := prWF_bounds h hl
      split at hr
      case h_1 hn =>
          injection hr with hr
          subst hr
          unfold prCount
          rw [prLookup_prErase_self h.1, hl]
          simp only [Option.getD_some, Option.getD_none]
          omega
      case h_2 k hn =>
          injection hr with hr
          subst hr
          unfold prCount
          rw [prLookup_prSet_self _ hl, hl]
          simp only [Option.getD_some]
          omega
  case h_2 hl => cases hr

lemma numRetains_retain_cons (ops : List PinOp) :
    numRetains (PinOp.retain :: ops) = numRetains ops + 1 := by
  simp [numRetains, List.filter]

lemma numRetains_release_cons (ops : List PinOp) :
    numRetains (PinOp.release :: ops) = numRetains ops := by
  simp [numRetains, List.filter]

lemma numReleases_retain_cons (ops : List PinOp) :
    numReleases (PinOp.retain :: ops) = numReleases ops := by
  simp [numReleases, List.filter]

lemma numReleases_release_cons (ops : List PinOp) :
    numReleases (PinOp.release :: ops) = numReleases ops + 1 := by
  simp [numReleases, List.filter]

lemma applyPinOps_inv (r : UnsafeRef) :
    ∀ (ops : List PinOp) (m m' : PinnedRoots), prWF m →
      applyPinOps r ops m = some m' →
      prWF m' ∧
        prCount m' r + numReleases ops = prCount m r + numRetains ops := by
  intro ops
  induction ops with
  | nil =>
      intro m m' hwf h
      unfold applyPinOps at h
      injection h with h
      subst h
      exact ⟨hwf, by simp [numRetains, numReleases]⟩
  | cons op rest ih =>
      intro m m' hwf h
      unfold applyPinOps at h
      split at h
      case h_1 m1 hr =>
          cases op with
          | retain =>
              simp only [applyPinOp] at hr
              obtain ⟨hwf1, hcnt⟩ := ih m1 m' (prWF_retain hwf hr) h
              refine ⟨hwf1, ?_⟩
              rw [numRetains_retain_cons, numReleases_retain_cons]
              have hc := retain_count hr
              omega
          | release =>
              simp only [applyPinOp] at hr
              obtain ⟨hwf1, hcnt⟩ := ih m1 m' (prWF_release hwf hr) h
              refine ⟨hwf1, ?_⟩
              rw [numRetains_release_cons, numReleases_release_cons]
              have hc := release_count hwf hr
              omega
      case h_2 => cases h

lemma release_eq_of_lookup {m : PinnedRoots} {r : UnsafeRef} {n : Nat}
    (hl : prLookup m r = some n) :
    release_pinned_root m r =
      (match n - 1 with
       | 0 => some (prErase m r)
       | k + 1 => some (prSet m r (k + 1))) := by
  unfold release_pinned_root
  rw [hl]

/-- C2: for any sequence of `retain_pinned_root` (`PinnedRoot`
constructions and clones) and `release_pinned_root` (`PinnedRoot`
destructions) on the same `UnsafeRef`, starting from the empty map, the
count stored for that reference equals the number of retains minus the
number of releases, the reference has an entry exactly when that number
is nonzero, and every stored count is strictly positive. -/
theorem pinned_root_refcount_law (r : UnsafeRef) (ops : List PinOp)
    (m : PinnedRoots) (h : applyPinOps r ops [] = some m) :
    prCount m r + numReleases ops = numRetains ops
    ∧ prCount m r = numRetains ops - numReleases ops
    ∧ (prLookup m r = none ↔ prCount m r = 0)
    ∧ ∀ p ∈ m, 0 < p.2 := by
  have hwf0 : prWF ([] : PinnedRoots) := by
    refine ⟨by simp, by simp⟩
  obtain ⟨hwf, hcnt⟩ := applyPinOps_inv r ops [] m hwf0 h
  have hz : prCount [] r = 0 := by simp [prCount, prLookup]
  rw [hz] at hcnt
  refine ⟨by omega, by omega, ?_, fun p hp => (hwf.2 p hp).1⟩
  constructor
  · intro hl; simp [prCount, hl]
  · intro hc
    cases hl : prLookup m r with
    | none => rfl
    | some n =>
        have hpos := (hwf.2 _ (prLookup_mem hl)).1
        simp [prCount, hl] at hc
        omega

/-- Witness for C2 at the concrete run retain, retain, release on
object 4. -/
theorem pinned_root_refcount_law_witness :
    prCount [(4, 1)] 4
        + numReleases [PinOp.retain, PinOp.retain, PinOp.release]
      = numRetains [PinOp.retain, PinOp.retain, PinOp.release]
    ∧ prCount [(4, 1)] 4
      = numRetains [PinOp.retain, PinOp.retain, PinOp.release]
        - numReleases [PinOp.retain, PinOp.retain, PinOp.release]
    ∧ (prLookup [(4, 1)] 4 = none ↔ prCount [(4, 1)] 4 = 0)
    ∧ ∀ p ∈ ([(4, 1)] : PinnedRoots), 0 < p.2 :=
  pinned_root_refcount_law 4 [PinOp.retain, PinOp.retain, PinOp.release]
    [(4, 1)] (by decide)

/-- C3: when an object's pinned-root count is already `u64::MAX`, a
further `retain_pinned_root` (`PinnedRoot` construction or clone) aborts
instead of wrapping or saturating. -/
theorem retain_pinned_root_overflow_fatal (m : PinnedRoots)
    (r : UnsafeRef) (h : prLookup m r = some U64_MAX) :
    retain_pinned_root m r = none := by
  unfold retain_pinned_root
  rw [h]
  simp

/-- Witness for C3 at a one-entry map whose count is `u64::MAX`. -/
theorem retain_pinned_root_overflow_fatal_witness :
    retain_pinned_root [(0, U64_MAX)] 0 = none :=
  retain_pinned_root_overflow_fatal [(0, U64_MAX)] 0 (by decide)

/-- C4: releasing a pinned root whose object has no entry aborts
(pinned-root underflow); when an entry with count `n` exists, the release
succeeds, the new count is `n - 1`, the entry is removed exactly when the
count reaches zero, and no other object's entry changes. -/
theorem release_pinned_root_spec (m : PinnedRoots) (r : UnsafeRef)
    (hwf : prWF m) :
    (prLookup m r = none → release_pinned_root m r = none)
    ∧ ∀ n, prLookup m r = some n →
        ∃ m', release_pinned_root m r = some m'
          ∧ prCount m' r = n - 1
          ∧ (prLookup m' r = none ↔ n - 1 = 0)
          ∧ ∀ x, x ≠ r → prLookup m' x = prLookup m x := by
  constructor
  · intro hl
    unfold release_pinned_root
    rw [hl]
  · intro n hl
    have he := release_eq_of_lookup hl
    cases hn : n - 1 with
    | zero =>
        rw [hn] at he
        refine ⟨prErase m r, he, ?_, ?_, ?_⟩
        · simp [prCount, prLookup_prErase_self hwf.1, hn]
        · simp [prLookup_prErase_self hwf.1, hn]
        · intro x hx
          exact prLookup_prErase_ne hx
    | succ k =>
        rw [hn] at he
        refine ⟨prSet m r (k + 1), he, ?_, ?_, ?_⟩
        · simp [prCount, prLookup_prSet_self _ hl, hn]
        · simp [prLookup_prSet_self _ hl, hn]
        · intro x hx
          exact prLookup_prSet_ne _ hx

/-- Witness for C4 at a map holding object 3 with count 2. -/
theorem release_pinned_root_spec_witness :
    ∃ m', release_pinned_root [(3, 2)] 3 = some m'
      ∧ prCount m' 3 = 2 - 1
      ∧ (prLookup m' 3 = none ↔ 2 - 1 = 0)
      ∧ ∀ x, x ≠ 3 → prLookup m' x = prLookup [(3, 2)] x :=
  (release_pinned_root_spec [(3, 2)] 3 (by decide)).2 2 (by decide)

/-- Sample state used by the concrete witnesses: a mutator fresh from
`Mutator::new`, on a heap with empty registries. -/
def sampleState : MutState :=
  { blocks := [], mutators := [], pinned_roots := [],
    allocator := Block.new 0, stack_root_batches := [],
    pinned_stack_roots := [], nextBlockId := 1 }

/-- C1: `Mutator::alloc(s)` branches on the size.  If
`s > DEFAULT_BLOCK_SIZE`, an ad-hoc block of capacity exactly `s` is
created, the object is allocated in it at offset 0, and that block is
appended to the heap's block registry.  Otherwise the allocation is
attempted by bump allocation in the current allocator block; if the bump
allocation succeeds the object lands in the allocator at its old cursor,
and if it fails the allocator block is retired to the heap's block
registry and a new default-size block holding the object becomes the
allocator. -/
theorem alloc_spec (st : MutState) (s : Nat) :
    (s > DEFAULT_BLOCK_SIZE →
      alloc st s = some (⟨st.nextBlockId, 0⟩,
        add_block { st with nextBlockId := st.nextBlockId + 1 }
          { id := st.nextBlockId, capacity := s, cursor := s }))
    ∧ (s ≤ DEFAULT_BLOCK_SIZE →
        (∀ off b1, st.allocator.try_alloc s = some (off, b1) →
          alloc st s = some (⟨st.allocator.id, off⟩, { st with allocator := b1 }))
        ∧ (st.allocator.try_alloc s = none →
          alloc st s = some (⟨st.nextBlockId, 0⟩,
            add_block { st with
                          allocator := { id := st.nextBlockId,
                                         capacity := DEFAULT_BLOCK_SIZE,
                                         cursor := s },
                          nextBlockId := st.nextBlockId + 1 }
              st.allocator))) := by
  refine ⟨?_, fun hle => ⟨?_, ?_⟩⟩
  · intro hgt
    unfold alloc
    rw [if_pos hgt]
    simp [alloc_large, Block.with_capacity, Block.try_alloc]
  · intro off b1 hta
    have hng : ¬ (s > DEFAULT_BLOCK_SIZE) := not_lt.mpr hle
    unfold alloc
    rw [if_neg hng]
    unfold alloc_small_fast
    rw [hta]
  · intro hta
    have hng : ¬ (s > DEFAULT_BLOCK_SIZE) := not_lt.mpr hle
    unfold alloc
    rw [if_neg hng]
    unfold alloc_small_fast
    rw [hta]
    simp [alloc_small_slow, Block.new, Block.try_alloc, hle]

/-- Witness for C1 at the oversize size `DEFAULT_BLOCK_SIZE + 1` on the
sample state. -/
theorem alloc_spec_witness :
    alloc sampleState (DEFAULT_BLOCK_SIZE + 1)
      = some (⟨sampleState.nextBlockId, 0⟩,
          add_block
            { sampleState with nextBlockId := sampleState.nextBlockId + 1 }
            { id := sampleState.nextBlockId,
              capacity := DEFAULT_BLOCK_SIZE + 1,
              cursor := DEFAULT_BLOCK_SIZE + 1 }) :=
  (alloc_spec sampleState (DEFAULT_BLOCK_SIZE + 1)).1 (by decide)

/-- C7: allocating an object of size `DEFAULT_BLOCK_SIZE + 1` from a
mutator whose allocator is the fresh default block creates a dedicated
block holding that object and transfers it to the heap's block registry,
leaves the mutator's allocator block untouched, and any subsequent small
allocation still succeeds, landing in that same fresh allocator block. -/
theorem oversize_alloc_frame (st : MutState)
    (hcur : st.allocator.cursor = 0)
    (hcap : st.allocator.capacity = DEFAULT_BLOCK_SIZE) :
    ∃ st', alloc st (DEFAULT_BLOCK_SIZE + 1) = some (⟨st.nextBlockId, 0⟩, st')
      ∧ st'.allocator = st.allocator
      ∧ st'.blocks = st.blocks ++
          [{ id := st.nextBlockId, capacity := DEFAULT_BLOCK_SIZE + 1,
             cursor := DEFAULT_BLOCK_SIZE + 1 }]
      ∧ ∀ s2, s2 ≤ DEFAULT_BLOCK_SIZE →
          alloc st' s2 = some (⟨st.allocator.id, 0⟩,
            { st' with allocator := { st.allocator with cursor := s2 } }) := by
  refine ⟨add_block { st with nextBlockId := st.nextBlockId + 1 }
            { id := st.nextBlockId, capacity := DEFAULT_BLOCK_SIZE + 1,
              cursor := DEFAULT_BLOCK_SIZE + 1 }, ?_, rfl, rfl, ?_⟩
  · unfold alloc
    rw [if_pos (Nat.lt_succ_self _)]
    simp [alloc_large, Block.with_capacity, Block.try_alloc]
  · intro s2 hs2
    have hng : ¬ (s2 > DEFAULT_BLOCK_SIZE) := not_lt.mpr hs2
    unfold alloc
    rw [if_neg hng]
    unfold alloc_small_fast Block.try_alloc
    simp only [add_block]
    rw [if_pos (by rw [hcur, hcap]; omega)]
    simp [hcur]

/-- Witness for C7 on the sample state. -/
theorem oversize_alloc_frame_witness :
    ∃ st', alloc sampleState (DEFAULT_BLOCK_SIZE + 1)
        = some (⟨sampleState.nextBlockId, 0⟩, st')
      ∧ st'.allocator = sampleState.allocator
      ∧ st'.blocks = sampleState.blocks ++
          [{ id := sampleState.nextBlockId,
             capacity := DEFAULT_BLOCK_SIZE + 1,
             cursor := DEFAULT_BLOCK_SIZE + 1 }]
      ∧ ∀ s2, s2 ≤ DEFAULT_BLOCK_SIZE →
          alloc st' s2 = some (⟨sampleState.allocator.id, 0⟩,
            { st' with
                allocator := { sampleState.allocator with cursor := s2 } }) :=
  oversize_alloc_frame sampleState (by decide) (by decide)

lemma exec_stacks (undef : UnsafeRef) :
    ∀ (c : Cmd) (st : MutState) (out : Outcome Unit) (st' : MutState),
      exec undef c st = some (out, st') →
      st'.stack_root_batches = st.stack_root_batches
      ∧ st'.pinned_stack_roots = st.pinned_stack_roots := by
  intro c
  induction c with
  | skip =>
      intro st out st' h
      unfold exec at h
      injection h with h
      injection h with h1 h2
      subst h2
      exact ⟨rfl, rfl⟩
  | panic =>
      intro st out st' h
      unfold exec at h
      injection h with h
      injection h with h1 h2
      subst h2
      exact ⟨rfl, rfl⟩
  | seq c1 c2 ih1 ih2 =>
      intro st out st' h
      unfold exec at h
      split at h
      · cases h
      case h_2 st1 heq =>
          injection h with h
          injection h with h1 h2
          subst h2
          exact ih1 st .panicked st1 heq
      case h_3 u st1 heq =>
          obtain ⟨hb1, hp1⟩ := ih1 st (.normal u) st1 heq
          obtain ⟨hb2, hp2⟩ := ih2 st1 out st' h
          exact ⟨hb2.trans hb1, hp2.trans hp1⟩
  | withRoots n body ih =>
      intro st out st' h
      unfold exec with_stack_roots at h
      dsimp only at h
      split at h
      · cases h
      case h_2 out2 st2 heq =>
          obtain ⟨hb, hp⟩ := ih _ out2 st2 heq
          simp only at hb hp
          split at h
          case h_1 hrest => cases h
          case h_2 d rest hrest =>
              injection h with h
              injection h with h1 h2
              subst h2
              rw [hrest] at hb
              injection hb with hd hrest2
              exact ⟨hrest2, hp⟩
  | withPinned r body ih =>
      intro st out st' h
      unfold exec with_pinned_stack_root at h
      dsimp only at h
      split at h
      · cases h
      case h_2 out2 st2 heq =>
          obtain ⟨hb, hp⟩ := ih _ out2 st2 heq
          simp only at hb hp
          split at h
          case h_1 hrest => cases h
          case h_2 d rest hrest =>
              injection h with h
              injection h with h1 h2
              subst h2
              rw [hrest] at hp
              injection hp with hd hrest2
              exact ⟨hb, hrest2⟩

/-- C5: a completed `with_stack_roots` or `with_pinned_stack_root` call —
the callback being any client program over the scoped root operations,
finishing normally or by a panic that unwinds — returns the mutator's
stack-root-batch stack and pinned-stack-root stack to exactly their state
from before the call: the pushed entry is popped again. -/
theorem scoped_roots_lifo (undef : UnsafeRef) (n : Nat) (r : UnsafeRef)
    (body : Cmd) (st : MutState) :
    (∀ (out : Outcome Unit) (st' : MutState),
        with_stack_roots undef n st (fun _ s => exec undef body s)
          = some (out, st') →
        st'.stack_root_batches = st.stack_root_batches
        ∧ st'.pinned_stack_roots = st.pinned_stack_roots)
    ∧ (∀ (out : Outcome Unit) (st' : MutState),
        with_pinned_stack_root r st (fun _ s => exec undef body s)
          = some (out, st') →
        st'.stack_root_batches = st.stack_root_batches
        ∧ st'.pinned_stack_roots = st.pinned_stack_roots) := by
  constructor
  · intro out st' h
    exact exec_stacks undef (.withRoots n body) st out st' h
  · intro out st' h
    exact exec_stacks undef (.withPinned r body) st out st' h

/-- Witness for C5: a callback that panics from inside a batch of three
stack roots still leaves both stacks as they were. -/
theorem scoped_roots_lifo_witness :
    sampleState.stack_root_batches = sampleState.stack_root_batches
    ∧ sampleState.pinned_stack_roots = sampleState.pinned_stack_roots :=
  (scoped_roots_lifo 99 3 0 Cmd.panic sampleState).1 .panicked sampleState
    (by decide)

/-- C6: `with_stack_roots::<N>` hands its callback a batch of exactly `N`
stack roots, each initialized to the heap's pre-allocated undef object,
with one batch descriptor for that array pushed onto the mutator's batch
stack before the callback runs; afterwards the state is as before.
Observed through a callback that returns its own arguments. -/
theorem with_stack_roots_batch (undef : UnsafeRef) (n : Nat)
    (st : MutState) :
    with_stack_roots undef n st
        (fun batch s => some (.normal (batch, s.stack_root_batches), s))
      = some (.normal (List.replicate n undef, n :: st.stack_root_batches),
              st)
    ∧ (List.replicate n undef).length = n
    ∧ ∀ x ∈ List.replicate n undef, x = undef := by
  refine ⟨?_, List.length_replicate n undef, fun x hx => List.eq_of_mem_replicate hx⟩
  unfold with_stack_roots
  rfl

/-- C10: `Mutator::safe_point_with(f)` invokes `f` exactly once and
returns exactly `f`'s result, leaving the heap's block registry, mutator
registry and pinned-root multiset and the mutator's allocator and root
stacks unchanged; `Mutator::safe_point()` likewise returns at once
without modifying any state, whether or not a collection was planned. -/
theorem safe_point_spec :
    (∀ (st : MutState) {κ R : Type} (f : κ → R × κ) (k : κ),
        safe_point_with st f k = (f k, st))
    ∧ (∀ (st : MutState) (c : Nat),
        (safe_point_with st (fun m => ((), m + 1)) c).1.2 = c + 1)
    ∧ (∀ st : MutState, safe_point st = st) := by
  refine ⟨?_, ?_, ?_⟩
  · intro st κ R f k
    rfl
  · intro st c
    rfl
  · intro st
    rfl

/-! Lemmas about the mutator registry. -/

lemma mutLookup_eq_none_iff (l : List (Nat × Block)) (a : Nat) :
    mutLookup l a = none ↔ a ∉ l.map Prod.fst := by
  induction l with
  | nil => simp [mutLookup]
  | cons p rest ih =>
      obtain ⟨s, b⟩ := p
      by_cases hs : s = a
      · subst hs; simp [mutLookup]
      · simp [mutLookup, hs, ih, Ne.symm hs]

lemma mutErase_map_fst (l : List (Nat × Block)) (a : Nat) :
    (mutErase l a).map Prod.fst = (l.map Prod.fst).erase a := by
  induction l with
  | nil => simp [mutErase]
  | cons p rest ih =>
      obtain ⟨s, b⟩ := p
      by_cases hs : s = a
      · subst hs; simp [mutErase, List.erase_cons]
      · simp [mutErase, hs, List.erase_cons, ih]

lemma mutLookup_mutErase_self {l : List (Nat × Block)} {a : Nat}
    (h : (l.map Prod.fst).Nodup) : mutLookup (mutErase l a) a = none := by
  induction l with
  | nil => simp [mutErase, mutLookup]
  | cons p rest ih =>
      obtain ⟨s, b⟩ := p
      simp only [List.map_cons, List.nodup_cons] at h
      by_cases hs : s = a
      · subst hs
        simp only [mutErase, if_pos rfl]
        exact (mutLookup_eq_none_iff rest s).2 h.1
      · simp [mutErase, hs, mutLookup, ih h.2]

lemma mutLookup_mutErase_ne {l : List (Nat × Block)} {a a' : Nat}
    (h : a' ≠ a) : mutLookup (mutErase l a) a' = mutLookup l a' := by
  induction l with
  | nil => simp [mutErase]
  | cons p rest ih =>
      obtain ⟨s, b⟩ := p
      by_cases hs : s = a
      · subst hs
        simp [mutErase, mutLookup, Ne.symm h]
      · simp [mutErase, mutLookup, hs, ih]

/-- Registry invariant: the registry holds no duplicates, the live table's
keys are distinct, and an address is registered exactly when a live
mutator box sits at it. -/
def RegInv (w : RegWorld) : Prop :=
  w.mutators.Nodup ∧ (w.liveMut.map Prod.fst).Nodup
  ∧ ∀ a, a ∈ w.mutators ↔ mutLookup w.liveMut a ≠ none

lemma regInv_new {w : RegWorld} {a : Nat} (h : RegInv w)
    (hfresh : mutLookup w.liveMut a = none) : RegInv (mutator_new w a) := by
  obtain ⟨hnd, hknd, hiff⟩ := h
  have hnm : a ∉ w.mutators := by
    intro hm
    exact (hiff a).1 hm hfresh
  unfold mutator_new register_mutator
  simp only [if_neg hnm]
  refine ⟨List.nodup_cons.2 ⟨hnm, hnd⟩, ?_, ?_⟩
  · simp only [List.map_cons, List.nodup_cons]
    exact ⟨(mutLookup_eq_none_iff w.liveMut a).1 hfresh, hknd⟩
  · intro b
    by_cases hb : b = a
    · subst hb
      simp [mutLookup]
    · simp only [List.mem_cons]
      constructor
      · intro hm
        rcases hm with hm | hm
        · exact absurd hm hb
        · simp [mutLookup, Ne.symm hb]
          exact (hiff b).1 hm
      · intro hl
        simp [mutLookup, Ne.symm hb] at hl
        exact Or.inr ((hiff b).2 hl)

lemma regInv_drop {w w' : RegWorld} {a : Nat} (h : RegInv w)
    (hd : mutator_drop w a = some w') : RegInv w' := by
  obtain ⟨hnd, hknd, hiff⟩ := h
  unfold mutator_drop at hd
  split at hd
  · cases hd
  case h_2 blk hl =>
      unfold unregister_mutator at hd
      have hm : a ∈ w.mutators := (hiff a).2 (by simp [hl])
      rw [if_pos hm] at hd
      injection hd with hd
      subst hd
      refine ⟨hnd.erase a, ?_, ?_⟩
      · simp only [mutErase_map_fst]
        exact hknd.erase a
      · intro b
        by_cases hb : b = a
        · subst hb
          simp [hnd.not_mem_erase, mutLookup_mutErase_self hknd]
        · simp only [List.mem_erase_of_ne hb, mutLookup_mutErase_ne hb]
          exact hiff b

lemma runMutEvents_inv :
    ∀ (evts : List MutEvent) (w w' : RegWorld), RegInv w →
      freshRun evts w = true → runMutEvents evts w = some w' → RegInv w' := by
  intro evts
  induction evts with
  | nil =>
      intro w w' h _ hr
      unfold runMutEvents at hr
      injection hr with hr
      exact hr ▸ h
  | cons e rest ih =>
      intro w w' h hf hr
      cases e with
      | create a =>
          unfold freshRun at hf
          unfold runMutEvents at hr
          rw [Bool.and_eq_true] at hf
          have hfresh : mutLookup w.liveMut a = none := by
            have := hf.1
            rwa [beq_iff_eq] at this
          exact ih _ w' (regInv_new h hfresh) hf.2 hr
      | destroy a =>
          unfold freshRun at hf
          unfold runMutEvents at hr
          split at hr
          · cases hr
          case h_2 w1 hd =>
              rw [hd] at hf
              exact ih w1 w' (regInv_drop h hd) hf hr

/-- C8: every live mutator is in the heap's mutator registry exactly once.
`Mutator::new` inserts the new mutator's address into the registry;
`Mutator::drop` removes it and transfers the mutator's allocator block to
the heap's block registry; unregistering an address that is not in the
registry (use-after-drop) aborts; and along any run of creations at fresh
addresses and drops from a fresh heap, a live address has registry count
exactly 1 and a dead one count 0. -/
theorem mutator_registry_spec :
    (∀ (w : RegWorld) (a : Nat), a ∈ (mutator_new w a).mutators)
    ∧ (∀ (w : RegWorld) (a : Nat) (blk : Block),
        mutLookup w.liveMut a = some blk → a ∈ w.mutators →
        ∃ w', mutator_drop w a = some w'
          ∧ w'.blocks = w.blocks ++ [blk]
          ∧ w'.mutators = w.mutators.erase a)
    ∧ (∀ (w : RegWorld) (a : Nat), a ∉ w.mutators →
        unregister_mutator w a = none)
    ∧ (∀ (evts : List MutEvent) (w : RegWorld),
        freshRun evts initialReg = true →
        runMutEvents evts initialReg = some w →
        ∀ a, (mutLookup w.liveMut a ≠ none → w.mutators.count a = 1)
           ∧ (mutLookup w.liveMut a = none → w.mutators.count a = 0)) := by
  refine ⟨?_, ?_, ?_, ?_⟩
  · intro w a
    unfold mutator_new register_mutator
    dsimp only
    split
    · assumption
    · exact List.mem_cons_self a _
  · intro w a blk hl hm
    refine ⟨{ mutators := w.mutators.erase a,
              blocks := w.blocks ++ [blk],
              liveMut := mutErase w.liveMut a,
              nextBlockId := w.nextBlockId }, ?_, rfl, rfl⟩
    unfold mutator_drop
    rw [hl]
    unfold unregister_mutator
    dsimp only
    rw [if_pos hm]
  · intro w a hnm
    unfold unregister_mutator
    rw [if_neg hnm]
  · intro evts w hf hr a
    have hinv0 : RegInv initialReg := by
      refine ⟨List.nodup_nil, by simp [initialReg], ?_⟩
      intro b
      simp [initialReg, mutLookup]
    obtain ⟨hnd, hknd, hiff⟩ := runMutEvents_inv evts initialReg w hinv0 hf hr
    constructor
    · intro hl
      exact List.count_eq_one_of_mem hnd ((hiff a).2 hl)
    · intro hl
      refine List.count_eq_zero.2 ?_
      intro hm
      exact (hiff a).1 hm hl

/-- Witness for C8 after creating mutators at addresses 10 and 11 and
dropping the one at 10. -/
theorem mutator_registry_spec_witness :
    (mutLookup [(11, Block.new 1)] 11 ≠ none →
      ([11] : List Nat).count 11 = 1)
    ∧ (mutLookup [(11, Block.new 1)] 11 = none →
      ([11] : List Nat).count 11 = 0) :=
  (mutator_registry_spec.2.2.2
    [MutEvent.create 10, MutEvent.create 11, MutEvent.destroy 10]
    { mutators := [11], blocks := [Block.new 0],
      liveMut := [(11, Block.new 1)], nextBlockId := 2 }
    (by decide) (by decide)) 11

end Icicle
